import Mathlib

/-!
A shallow embedding of the in-memory fake etcd store
(`src/cpp/util/fake_etcd.cc`): the entry table with its global version
counter, compare-and-swap precondition checking, watch registration and
notification fan-out, TTL purge, and the JSON response documents.

Scheduling is modelled by the list of callbacks an operation enqueues, in
enqueue order; time is an explicit `now : Nat` parameter; C++ `CHECK`
failures (fatal contract violations) are modelled as `Except.error`.
-/

namespace FakeEtcd

/-- JSON values, as built by the `JsonObject`/`JsonArray` wrappers: an
object is its field list in insertion order. -/
inductive JVal where
  | str : String → JVal
  | num : Nat → JVal
  | bool : Bool → JVal
  | arr : List JVal → JVal
  | obj : List (String × JVal) → JVal

/-- First field of the given name in a JSON object's field list. -/
def lookupField : List (String × JVal) → String → Option JVal
  | [], _ => none
  | (k, v) :: rest, fname => if k = fname then some v else lookupField rest fname

/-- One stored node (`EtcdClient::Node`): `created_index_`,
`modified_index_`, `key_`, `value_`, `deleted_`, `expires_`.
`expires = none` means "never expires". -/
structure Node where
  createdIndex : Nat
  modifiedIndex : Nat
  key : String
  value : String
  deleted : Bool
  expires : Option Nat
deriving Repr, DecidableEq

/-- The request parameter map, restricted to the four recognized names
(`value`, `ttl`, `prevExist`, `prevIndex`); an absent name is `none`.
`ttl` is kept as the parsed number of seconds (`stoi` on a decimal
string); `prevExist` and `prevIndex` are kept as the raw strings the
C++ code compares. -/
structure Params where
  value : Option String := none
  ttl : Option Nat := none
  prevExist : Option String := none
  prevIndex : Option String := none
deriving Repr, DecidableEq

/-- `util::Status` as used here. -/
inductive Status where
  | ok
  | notFound (msg : String)
  | failedPrecondition (msg : String)
deriving Repr, DecidableEq

/-- A callback handed to `ScheduleCallback`, in enqueue order: either an
operation's own response (status, JSON document, store index) or a watch
notification to one subscription (watcher id, list of
`WatchUpdate(node, exists)`). -/
inductive Cb where
  | response (st : Status) (json : List (String × JVal)) (storeIndex : Nat)
  | note (watcher : Nat) (updates : List (Node × Bool))

/-- `s.find(pre) == 0`: `pre` is a string prefix of `s`. -/
def strStartsWith (s pre : String) : Bool := pre.data.isPrefixOf s.data

/-- `!s.empty() && s.back() == '/'` (the C++ code never takes `.back()`
of an empty key on the paths modelled here). -/
def endsWithSlash (s : String) : Bool := s.data.getLast? == some '/'

/-- `EnsureEndsWithSlash`. -/
def ensureEndsWithSlash (s : String) : String :=
  if endsWithSlash s then s else s ++ "/"

/-- Byte-wise lexicographic `<` of `std::string` (structural, so that
concrete instances evaluate). -/
def charListLt : List Char → List Char → Bool
  | [], [] => false
  | [], _ :: _ => true
  | _ :: _, [] => false
  | a :: as, b :: bs =>
    if a.toNat < b.toNat then true
    else if b.toNat < a.toNat then false
    else charListLt as bs

def strLt (a b : String) : Bool := charListLt a.data b.data

/-- `entries_.find(key)` on the `std::map` modelled as an association
list (kept in key order by `mapInsert`). -/
def mapFind : List (String × Node) → String → Option Node
  | [], _ => none
  | (k, n) :: rest, key => if k = key then some n else mapFind rest key

/-- `entries_[key] = node`: insert or overwrite, keeping key order. -/
def mapInsert (key : String) (n : Node) : List (String × Node) → List (String × Node)
  | [] => [(key, n)]
  | (k, m) :: rest =>
    if strLt key k then (key, n) :: (k, m) :: rest
    else if key = k then (key, n) :: rest
    else (k, m) :: mapInsert key n rest

/-- `entries_.erase(key)`. -/
def mapErase (key : String) : List (String × Node) → List (String × Node)
  | [] => []
  | (k, m) :: rest => if k = key then rest else (k, m) :: mapErase key rest

/-- `it->second.expires_ < system_clock::now()`. -/
def isExpired (now : Nat) (n : Node) : Bool :=
  match n.expires with
  | none => false
  | some t => t < now

/-- `MaybeSetExpiry`. -/
def maybeSetExpiry (now : Nat) (p : Params) (n : Node) : Node :=
  match p.ttl with
  | none => n
  | some t => { n with expires := some (now + t) }

/-- `FillJsonForNode`. -/
def fillJsonForNode (n : Node) : List (String × JVal) :=
  [("modifiedIndex", JVal.num n.modifiedIndex),
   ("createdIndex", JVal.num n.createdIndex),
   ("key", JVal.str n.key)] ++
  (if n.deleted then [] else [("value", JVal.str n.value)])

/-- `FillJsonForEntry`: the response document for a leaf operation. -/
def fillJsonForEntry (n : Node) (action : String) : List (String × JVal) :=
  [("action", JVal.str action), ("node", JVal.obj (fillJsonForNode n))]

/-- `FillJsonForDir`: the response document for a directory read. Note
that the source adds the `action` field to the `node` object, not to the
top level. -/
def fillJsonForDir (nodes : List Node) (action : String) : List (String × JVal) :=
  [("node", JVal.obj (
    [("modifiedIndex", JVal.num 1),
     ("createdIndex", JVal.num 1),
     ("dir", JVal.bool true)] ++
    (if nodes.length > 0 then
      [("nodes", JVal.arr (nodes.map (fun n => JVal.obj (fillJsonForNode n))))]
     else []) ++
    [("action", JVal.str action)]))]

/-- `CheckCompareFlags`: the `prevExist` check, then the `prevIndex`
check (string comparison against `to_string(modified_index_)`). -/
def checkCompareFlags (p : Params) (key : String)
    (entries : List (String × Node)) : Status :=
  let entryExists := (mapFind entries key).isSome
  let existStep : Option Status :=
    match p.prevExist with
    | none => none
    | some pe =>
      if entryExists && pe == "false" then
        some (Status.failedPrecondition (key ++ " Already exists"))
      else if !entryExists && pe == "true" then
        some (Status.failedPrecondition (key ++ " Not found"))
      else none
  match existStep with
  | some st => st
  | none =>
    match p.prevIndex with
    | none => Status.ok
    | some pi =>
      match mapFind entries key with
      | none => Status.failedPrecondition ("Node doesn't exist: " ++ key)
      | some n =>
        if pi ≠ Nat.repr n.modifiedIndex then
          Status.failedPrecondition ("Incorrect index:  prevIndex=" ++ pi ++
            " but modified_index_=" ++ Nat.repr n.modifiedIndex)
        else Status.ok

/-- The whole store: `entries_`, `index_` and `watches_` (each
subscription as its registration key paired with a distinct watcher id;
`nextWatcher` generates the ids). -/
structure State where
  entries : List (String × Node)
  index : Nat
  watches : List (String × Nat)
  nextWatcher : Nat
deriving Repr, DecidableEq

/-- The store as constructed: empty table, `index_(1)`, no watches. -/
def State.init : State := ⟨[], 1, [], 0⟩

/-- The notifications `NotifyForPath` schedules for one (possibly
tombstoned) node: one per subscription whose key is a string prefix of
`path`, in registry order, carrying `(node, !node.deleted)`. -/
def notifyWatchers (watches : List (String × Nat)) (path : String) (n : Node) : List Cb :=
  (watches.filter (fun w => strStartsWith path w.1)).map
    (fun w => Cb.note w.2 [(n, !n.deleted)])

/-- `NotifyForPath`: looks the node up in the table (a `CHECK` guarantees
it is present at every call site) and fans out to matching watchers. -/
def notifyForPath (entries : List (String × Node)) (watches : List (String × Nat))
    (path : String) : List Cb :=
  match mapFind entries path with
  | none => []
  | some n => notifyWatchers watches path n

/-- `watches_[key].push_back(...)`: the registry is a `std::map` from key
to a vector of subscriptions; a new subscription goes after every entry
whose key is not greater. -/
def insertWatch (key : String) (wid : Nat) : List (String × Nat) → List (String × Nat)
  | [] => [(key, wid)]
  | (k, w) :: rest =>
    if strLt key k then (key, wid) :: (k, w) :: rest
    else (k, w) :: insertWatch key wid rest

/-- `PurgeExpiredEntries`: walk the table in order; each expired entry is
tombstoned, its watchers are notified (with `exists = false`, since the
node is tombstoned when `NotifyForPath` reads it), and it is erased. -/
def purgeLoop (now : Nat) (watches : List (String × Nat)) :
    List (String × Node) → List (String × Node) × List Cb
  | [] => ([], [])
  | (k, n) :: rest =>
    if isExpired now n then
      let tomb : Node := { n with deleted := true }
      let out := purgeLoop now watches rest
      (out.1, notifyWatchers watches k tomb ++ out.2)
    else
      let out := purgeLoop now watches rest
      ((k, n) :: out.1, out.2)

/-- `FakeEtcdClient::Watch`: snapshot every entry whose key extends the
watched key as `(entry, exists = true)`, schedule exactly one callback
carrying the snapshot (even when empty), then register the
subscription. -/
def watch (wkey : String) (s : State) : State × List Cb :=
  let snapshot := (s.entries.filter (fun pr => strStartsWith pr.1 wkey)).map
    (fun pr => (pr.2, true))
  ({ s with watches := insertWatch wkey s.nextWatcher s.watches,
            nextWatcher := s.nextWatcher + 1 },
   [Cb.note s.nextWatcher snapshot])

/-- `GetSingleEntry`. -/
def getSingleEntry (key : String) (s : State) : List Cb :=
  match mapFind s.entries key with
  | some n => [Cb.response Status.ok (fillJsonForEntry n "get") s.index]
  | none => [Cb.response (Status.notFound "not found") [] s.index]

/-- `GetDirectory`: every entry whose key extends the directory key. -/
def getDirectory (key : String) (s : State) : List Cb :=
  let nodes := (s.entries.filter (fun pr => strStartsWith pr.1 key)).map (fun pr => pr.2)
  [Cb.response Status.ok (fillJsonForDir nodes "get") s.index]

/-- `HandleGet`: dispatch on the key's shape. -/
def handleGet (key : String) (s : State) : List Cb :=
  if endsWithSlash key then getDirectory key s else getSingleEntry key s

/-- `HandlePost` (create): synthesize the path `<dir>/<index_>`, stamp
both versions with the pre-increment counter, store, increment, and
schedule the "create" response carrying the post-increment counter,
then the watch notifications. `CHECK(value present)` is fatal. -/
def handlePost (key : String) (p : Params) (now : Nat) (s : State) :
    Except String (State × List Cb) :=
  let path := ensureEndsWithSlash key ++ Nat.repr s.index
  match p.value with
  | none => Except.error "CHECK failed: POST without value param"
  | some v =>
    let node := maybeSetExpiry now p ⟨s.index, s.index, path, v, false, none⟩
    let s' : State := { s with entries := mapInsert path node s.entries,
                               index := s.index + 1 }
    Except.ok (s', Cb.response Status.ok (fillJsonForEntry node "create") s'.index
                     :: notifyForPath s'.entries s'.watches path)

/-- `HandlePut` (conditional write): `CHECK` the key is leaf-shaped and a
value is present; on a failed precondition schedule the error response
and change nothing; otherwise write (preserving `created_index_` of an
existing entry), increment, and schedule the "set" response and the
notifications. -/
def handlePut (key : String) (p : Params) (now : Nat) (s : State) :
    Except String (State × List Cb) :=
  if endsWithSlash key then Except.error "CHECK failed: PUT on directory key"
  else
    match p.value with
    | none => Except.error "CHECK failed: PUT without value param"
    | some v =>
      let node0 := maybeSetExpiry now p ⟨s.index, s.index, key, v, false, none⟩
      let status := checkCompareFlags p key s.entries
      if status ≠ Status.ok then
        Except.ok (s, [Cb.response status [] s.index])
      else
        let node :=
          match mapFind s.entries key with
          | some old => { node0 with createdIndex := old.createdIndex }
          | none => node0
        let s' : State := { s with entries := mapInsert key node s.entries,
                                   index := s.index + 1 }
        Except.ok (s', Cb.response Status.ok (fillJsonForEntry node "set") s'.index
                         :: notifyForPath s'.entries s'.watches key)

/-- The node `entries_[key]` default-constructs when a delete hits a
missing key with no preconditions. Modelled from the spec: the `Node`
default constructor lives in a header outside this repository's files;
its version fields default to zero and its strings to empty. -/
def defaultNode : Node := ⟨0, 0, "", "", false, none⟩

/-- `HandleDelete` (conditional delete): `CHECK` the key is leaf-shaped;
on a failed precondition schedule the error response and change nothing;
otherwise tombstone the entry in place, increment, schedule the "delete"
response built from the tombstoned entry, schedule the notifications,
and erase the entry. -/
def handleDelete (key : String) (p : Params) (s : State) :
    Except String (State × List Cb) :=
  if endsWithSlash key then Except.error "CHECK failed: DELETE on directory key"
  else
    let status := checkCompareFlags p key s.entries
    if status ≠ Status.ok then
      Except.ok (s, [Cb.response status [] s.index])
    else
      let tomb : Node :=
        match mapFind s.entries key with
        | some n => { n with deleted := true }
        | none => { defaultNode with deleted := true }
      let entries1 := mapInsert key tomb s.entries
      let s' : State := { s with entries := mapErase key entries1,
                                 index := s.index + 1 }
      Except.ok (s', Cb.response Status.ok (fillJsonForEntry tomb "delete") (s.index + 1)
                       :: notifyForPath entries1 s.watches key)

inductive Verb where
  | get
  | post
  | put
  | delete
deriving Repr, DecidableEq

/-- `FakeEtcdClient::Generic`: purge expired entries, then dispatch by
verb; the request's callbacks are enqueued after the purge's. -/
def generic (key : String) (p : Params) (verb : Verb) (now : Nat) (s : State) :
    Except String (State × List Cb) :=
  let purged := purgeLoop now s.watches s.entries
  let s1 : State := { s with entries := purged.1 }
  let res : Except String (State × List Cb) :=
    match verb with
    | Verb.get => Except.ok (s1, handleGet key s1)
    | Verb.post => handlePost key p now s1
    | Verb.put => handlePut key p now s1
    | Verb.delete => handleDelete key p s1
  match res with
  | Except.ok (s2, cbs) => Except.ok (s2, purged.2 ++ cbs)
  | Except.error e => Except.error e

/-- One external call into the store. -/
inductive Op where
  | generic (key : String) (p : Params) (verb : Verb) (now : Nat)
  | watch (wkey : String)

def runOp (op : Op) (s : State) : Except String (State × List Cb) :=
  match op with
  | Op.generic key p verb now => generic key p verb now s
  | Op.watch wkey => Except.ok (watch wkey s)

/-- A sequence of external calls; the trace is every scheduled callback
in enqueue order. -/
def runOps : List Op → State → Except String (State × List Cb)
  | [], s => Except.ok (s, [])
  | op :: ops, s =>
    match runOp op s with
    | Except.error e => Except.error e
    | Except.ok (s', cbs) =>
      match runOps ops s' with
      | Except.error e => Except.error e
      | Except.ok (s'', cbs') => Except.ok (s'', cbs ++ cbs')

/-- The table's keys are pairwise distinct (true of every table built by
`mapInsert`/`mapErase` from the empty one). -/
def keysUnique (entries : List (String × Node)) : Prop :=
  entries.Pairwise (fun a b => a.1 ≠ b.1)

/-- Every version stamp in the table is strictly below the counter: the
shape of "no version value is ever reused". -/
def versionsBelow (s : State) : Prop :=
  ∀ pr ∈ s.entries, pr.2.modifiedIndex < s.index ∧ pr.2.createdIndex < s.index

/-- The operation mutates the table (is a create, write or delete). -/
def Op.isMutation : Op → Bool
  | Op.generic _ _ Verb.get _ => false
  | Op.generic _ _ _ _ => true
  | Op.watch _ => false

/-- The operation completed (scheduled callbacks) rather than aborting on
a `CHECK`. -/
def exceptOk (r : Except String (State × List Cb)) : Bool :=
  match r with
  | Except.ok _ => true
  | Except.error _ => false

/-- The value of a most-significant-digit-first decimal digit list
(inverse of the rendering done by `Nat.toDigitsCore`). -/
def digitVal (c : Char) : Nat := c.toNat - 48

def msdVal : List Char → Nat
  | [] => 0
  | c :: cs => digitVal c * 10 ^ cs.length + msdVal cs

/-! ## Basic lemmas about the embedded operations -/

theorem maybeSetExpiry_modifiedIndex (now : Nat) (p : Params) (n : Node) :
    (maybeSetExpiry now p n).modifiedIndex = n.modifiedIndex := by
  cases h : p.ttl <;> simp [maybeSetExpiry, h]

theorem maybeSetExpiry_createdIndex (now : Nat) (p : Params) (n : Node) :
    (maybeSetExpiry now p n).createdIndex = n.createdIndex := by
  cases h : p.ttl <;> simp [maybeSetExpiry, h]

theorem maybeSetExpiry_key (now : Nat) (p : Params) (n : Node) :
    (maybeSetExpiry now p n).key = n.key := by
  cases h : p.ttl <;> simp [maybeSetExpiry, h]

theorem maybeSetExpiry_deleted (now : Nat) (p : Params) (n : Node) :
    (maybeSetExpiry now p n).deleted = n.deleted := by
  cases h : p.ttl <;> simp [maybeSetExpiry, h]

theorem mapFind_insert_self (key : String) (n : Node) :
    ∀ m : List (String × Node), mapFind (mapInsert key n m) key = some n := by
  intro m
  induction m with
  | nil => simp [mapInsert, mapFind]
  | cons hd tl ih =>
    obtain ⟨k, v⟩ := hd
    by_cases heq : key = k
    · subst heq
      by_cases hlt : strLt key key = true
      · simp [mapInsert, hlt, mapFind]
      · simp [mapInsert, hlt, mapFind]
    · by_cases hlt : strLt key k = true
      · simp [mapInsert, hlt, mapFind]
      · have hk : ¬(k = key) := fun h => heq h.symm
        simp [mapInsert, hlt, heq, mapFind, hk, ih]

theorem mapFind_insert_ne (key : String) (n : Node) (k' : String) (hne : k' ≠ key) :
    ∀ m : List (String × Node), mapFind (mapInsert key n m) k' = mapFind m k' := by
  intro m
  have hkk : ¬(key = k') := fun h => hne h.symm
  induction m with
  | nil => simp [mapInsert, mapFind, hkk]
  | cons hd tl ih =>
    obtain ⟨k, v⟩ := hd
    by_cases heq : key = k
    · subst heq
      by_cases hlt : strLt key key = true
      · simp [mapInsert, hlt, mapFind, hkk]
      · simp [mapInsert, hlt, mapFind, hkk]
    · by_cases hlt : strLt key k = true
      · simp [mapInsert, hlt, mapFind, hkk]
      · simp [mapInsert, hlt, heq, mapFind, ih]

theorem mem_mapInsert (key : String) (n : Node) :
    ∀ (m : List (String × Node)) (pr : String × Node),
      pr ∈ mapInsert key n m → pr = (key, n) ∨ pr ∈ m := by
  intro m
  induction m with
  | nil => intro pr h; simp [mapInsert] at h; exact Or.inl h
  | cons hd tl ih =>
    intro pr h
    obtain ⟨k, v⟩ := hd
    by_cases heq : key = k
    · subst heq
      by_cases hlt : strLt key key = true
      · simp [mapInsert, hlt] at h
        rcases h with h | h | h
        · exact Or.inl (by simp [h])
        · exact Or.inr (by simp [h])
        · exact Or.inr (by simp [h])
      · simp [mapInsert, hlt] at h
        rcases h with h | h
        · exact Or.inl (by simp [h])
        · exact Or.inr (by simp [h])
    · by_cases hlt : strLt key k = true
      · simp [mapInsert, hlt] at h
        rcases h with h | h | h
        · exact Or.inl (by simp [h])
        · exact Or.inr (by simp [h])
        · exact Or.inr (by simp [h])
      · simp [mapInsert, hlt, heq] at h
        rcases h with h | h
        · exact Or.inr (by simp [h])
        · rcases ih pr h with h' | h'
          · exact Or.inl h'
          · exact Or.inr (by simp [h'])

theorem mem_mapErase (key : String) :
    ∀ (m : List (String × Node)) (pr : String × Node),
      pr ∈ mapErase key m → pr ∈ m := by
  intro m
  induction m with
  | nil => intro pr h; simp [mapErase] at h
  | cons hd tl ih =>
    intro pr h
    obtain ⟨k, v⟩ := hd
    by_cases heq : k = key
    · simp [mapErase, heq] at h
      exact List.mem_cons_of_mem _ h
    · simp [mapErase, heq] at h
      rcases h with h | h
      · simp [h]
      · exact List.mem_cons_of_mem _ (ih pr h)

theorem mapFind_eq_none_of_all_ne (key : String) :
    ∀ m : List (String × Node), (∀ pr ∈ m, pr.1 ≠ key) → mapFind m key = none := by
  intro m
  induction m with
  | nil => intro _; simp [mapFind]
  | cons hd tl ih =>
    intro h
    obtain ⟨k, v⟩ := hd
    have hk : k ≠ key := h (k, v) (List.mem_cons_self _ _)
    simp [mapFind, hk]
    exact ih fun pr hpr => h pr (List.mem_cons_of_mem _ hpr)

/-! ## Decimal rendering: `Nat.repr` is injective -/

theorem digitVal_digitChar (d : Nat) (h : d < 10) :
    digitVal (Nat.digitChar d) = d := by
  interval_cases d <;> decide

theorem msdVal_append_singleton (c : Char) :
    ∀ l : List Char, msdVal (l ++ [c]) = 10 * msdVal l + digitVal c := by
  intro l
  induction l with
  | nil => simp [msdVal]
  | cons hd tl ih =>
    have hlen : (tl ++ [c]).length = tl.length + 1 := by simp
    simp only [List.cons_append, msdVal, List.append_eq, ih, hlen]
    ring

theorem toDigitsCore_acc (f : Nat) :
    ∀ (n : Nat) (acc : List Char),
      Nat.toDigitsCore 10 f n acc = Nat.toDigitsCore 10 f n [] ++ acc := by
  induction f with
  | zero => intro n acc; simp [Nat.toDigitsCore]
  | succ f ih =>
    intro n acc
    simp only [Nat.toDigitsCore]
    by_cases h : n / 10 = 0
    · simp [h]
    · simp only [h, if_false]
      rw [ih (n / 10) (Nat.digitChar (n % 10) :: acc),
          ih (n / 10) (Nat.digitChar (n % 10) :: [])]
      simp

theorem msdVal_toDigitsCore (n : Nat) :
    ∀ f : Nat, n < f → msdVal (Nat.toDigitsCore 10 f n []) = n := by
  induction n using Nat.strong_induction_on with
  | _ n ih =>
    intro f hf
    match f, hf with
    | f + 1, hf =>
      simp only [Nat.toDigitsCore]
      by_cases h : n / 10 = 0
      · have hn : n < 10 := by
          by_contra hge
          have h10 : 10 ≤ n := Nat.le_of_not_lt hge
          have : 1 ≤ n / 10 := Nat.le_div_iff_mul_le (by norm_num) |>.mpr (by omega)
          omega
        simp [h, msdVal, Nat.mod_eq_of_lt hn, digitVal_digitChar n hn]
      · have hpos : 0 < n := by
          rcases Nat.eq_zero_or_pos n with h0 | h0
          · exact absurd (by simp [h0]) h
          · exact h0
        have hdiv_lt : n / 10 < n := Nat.div_lt_self hpos (by norm_num)
        have hdiv_f : n / 10 < f := lt_of_lt_of_le hdiv_lt (Nat.lt_succ_iff.mp hf)
        simp only [h, if_false]
        rw [toDigitsCore_acc]
        rw [msdVal_append_singleton]
        rw [ih (n / 10) hdiv_lt f hdiv_f]
        rw [digitVal_digitChar (n % 10) (Nat.mod_lt _ (by norm_num))]
        exact Nat.div_add_mod n 10

theorem natRepr_injective (m n : Nat) (h : Nat.repr m = Nat.repr n) : m = n := by
  have hdata : Nat.toDigits 10 m = Nat.toDigits 10 n := by
    have := congrArg String.data h
    simpa [Nat.repr, List.asString] using this
  have hm := msdVal_toDigitsCore m (m + 1) (Nat.lt_succ_self m)
  have hn := msdVal_toDigitsCore n (n + 1) (Nat.lt_succ_self n)
  simp only [Nat.toDigits] at hdata
  rw [← hm, ← hn, hdata]

theorem maybeSetExpiry_value (now : Nat) (p : Params) (n : Node) :
    (maybeSetExpiry now p n).value = n.value := by
  cases h : p.ttl <;> simp [maybeSetExpiry, h]

theorem mapFind_mem (key : String) :
    ∀ (m : List (String × Node)) (n : Node), mapFind m key = some n → (key, n) ∈ m := by
  intro m
  induction m with
  | nil => intro n h; simp [mapFind] at h
  | cons hd tl ih =>
    intro n h
    obtain ⟨k, v⟩ := hd
    by_cases heq : k = key
    · subst heq
      simp [mapFind] at h
      simp [h]
    · simp [mapFind, heq] at h
      exact List.mem_cons_of_mem _ (ih n h)

theorem purgeLoop_subset (now : Nat) (w : List (String × Nat)) :
    ∀ (e : List (String × Node)) (pr : String × Node),
      pr ∈ (purgeLoop now w e).1 → pr ∈ e := by
  intro e
  induction e with
  | nil => intro pr h; simp [purgeLoop] at h
  | cons hd tl ih =>
    intro pr h
    obtain ⟨k, n⟩ := hd
    by_cases hx : isExpired now n = true
    · simp only [purgeLoop, hx, if_true] at h
      exact List.mem_cons_of_mem _ (ih pr h)
    · simp only [purgeLoop, hx, if_false] at h
      rcases List.mem_cons.mp h with h | h
      · simp [h]
      · exact List.mem_cons_of_mem _ (ih pr h)

theorem notifyForPath_notes (e : List (String × Node)) (w : List (String × Nat))
    (path : String) :
    ∀ c ∈ notifyForPath e w path, ∃ wid u, c = Cb.note wid u := by
  intro c hc
  unfold notifyForPath at hc
  cases hfind : mapFind e path with
  | none => rw [hfind] at hc; simp at hc
  | some n =>
    rw [hfind] at hc
    unfold notifyWatchers at hc
    rcases List.mem_map.mp hc with ⟨wpr, _, hmap⟩
    exact ⟨wpr.2, [(n, !n.deleted)], hmap.symm⟩


/-- What a completed create did to the store: it wrote a node stamped
with the pre-increment counter at the synthesized path and incremented
the counter. -/
theorem handlePost_state (key : String) (p : Params) (now : Nat) (s s' : State)
    (cbs : List Cb) (h : handlePost key p now s = Except.ok (s', cbs)) :
    ∃ node : Node, node.modifiedIndex = s.index ∧ node.createdIndex = s.index ∧
      s' = { s with
        entries := mapInsert (ensureEndsWithSlash key ++ Nat.repr s.index) node s.entries,
        index := s.index + 1 } := by
  cases hv : p.value with
  | none => simp [handlePost, hv] at h
  | some v =>
    simp only [handlePost, hv, Except.ok.injEq, Prod.mk.injEq] at h
    exact ⟨_, maybeSetExpiry_modifiedIndex now p _, maybeSetExpiry_createdIndex now p _,
      h.1.symm⟩

/-- What a completed conditional write did to the store: on a failed
precondition nothing; otherwise it wrote a node stamped with the
pre-increment counter (keeping an existing entry's `created_index_`) and
incremented the counter. -/
theorem handlePut_state (key : String) (p : Params) (now : Nat) (s s' : State)
    (cbs : List Cb) (h : handlePut key p now s = Except.ok (s', cbs)) :
    (checkCompareFlags p key s.entries ≠ Status.ok ∧ s' = s) ∨
    (checkCompareFlags p key s.entries = Status.ok ∧
     ∃ node : Node, node.modifiedIndex = s.index ∧
       (node.createdIndex = s.index ∨
        ∃ old, mapFind s.entries key = some old ∧ node.createdIndex = old.createdIndex) ∧
       s' = { s with entries := mapInsert key node s.entries, index := s.index + 1 }) := by
  by_cases hslash : endsWithSlash key = true
  · simp [handlePut, hslash] at h
  · have hslash' : endsWithSlash key = false := by
      cases hx : endsWithSlash key
      · rfl
      · exact absurd hx hslash
    cases hv : p.value with
    | none => simp [handlePut, hslash', hv] at h
    | some v =>
      by_cases hst : checkCompareFlags p key s.entries = Status.ok
      · right
        refine ⟨hst, ?_⟩
        cases hfind : mapFind s.entries key with
        | none =>
          simp only [handlePut, hslash', Bool.false_eq_true, if_false, hv, hst, ne_eq,
            not_true_eq_false, if_false, hfind, Except.ok.injEq, Prod.mk.injEq] at h
          exact ⟨_, maybeSetExpiry_modifiedIndex now p _,
            Or.inl (maybeSetExpiry_createdIndex now p _), h.1.symm⟩
        | some old =>
          simp only [handlePut, hslash', Bool.false_eq_true, if_false, hv, hst, ne_eq,
            not_true_eq_false, if_false, hfind, Except.ok.injEq, Prod.mk.injEq] at h
          refine ⟨_, ?_, Or.inr ⟨old, rfl, by simp⟩, h.1.symm⟩
          simp [maybeSetExpiry_modifiedIndex]
      · left
        simp only [handlePut, hslash', Bool.false_eq_true, if_false, hv, ne_eq, hst,
          not_false_eq_true, if_true, Except.ok.injEq, Prod.mk.injEq] at h
        exact ⟨hst, h.1.symm⟩

/-- What a completed conditional delete did to the store: on a failed
precondition nothing; otherwise it tombstoned and erased the entry and
incremented the counter. -/
theorem handleDelete_state (key : String) (p : Params) (s s' : State)
    (cbs : List Cb) (h : handleDelete key p s = Except.ok (s', cbs)) :
    (checkCompareFlags p key s.entries ≠ Status.ok ∧ s' = s) ∨
    (checkCompareFlags p key s.entries = Status.ok ∧
     ∃ tomb : Node,
       ((∃ old, mapFind s.entries key = some old ∧ tomb.modifiedIndex = old.modifiedIndex ∧
           tomb.createdIndex = old.createdIndex) ∨
        (tomb.modifiedIndex = 0 ∧ tomb.createdIndex = 0)) ∧
       s' = { s with entries := mapErase key (mapInsert key tomb s.entries), index := s.index + 1 }) := by
  by_cases hslash : endsWithSlash key = true
  · simp [handleDelete, hslash] at h
  · have hslash' : endsWithSlash key = false := by
      cases hx : endsWithSlash key
      · rfl
      · exact absurd hx hslash
    by_cases hst : checkCompareFlags p key s.entries = Status.ok
    · right
      refine ⟨hst, ?_⟩
      cases hfind : mapFind s.entries key with
      | none =>
        simp only [handleDelete, hslash', Bool.false_eq_true, if_false, hst, ne_eq,
          not_true_eq_false, if_false, hfind, Except.ok.injEq, Prod.mk.injEq] at h
        exact ⟨_, Or.inr ⟨rfl, rfl⟩, h.1.symm⟩
      | some old =>
        simp only [handleDelete, hslash', Bool.false_eq_true, if_false, hst, ne_eq,
          not_true_eq_false, if_false, hfind, Except.ok.injEq, Prod.mk.injEq] at h
        exact ⟨{ old with deleted := true }, Or.inl ⟨old, rfl, rfl, rfl⟩, h.1.symm⟩
    · left
      simp only [handleDelete, hslash', Bool.false_eq_true, if_false, ne_eq, hst,
        not_false_eq_true, if_true, Except.ok.injEq, Prod.mk.injEq] at h
      exact ⟨hst, h.1.symm⟩


/-- On a table with distinct keys, filtering out the entry found at
`key` makes a lookup of `key` miss. -/
theorem mapFind_filter_none (key : String) (pred : String × Node → Bool) :
    ∀ e : List (String × Node), keysUnique e → ∀ n, mapFind e key = some n →
      pred (key, n) = false → mapFind (e.filter pred) key = none := by
  intro e
  induction e with
  | nil => intro _ n h; simp [mapFind] at h
  | cons hd tl ih =>
    intro hu n h hp
    obtain ⟨k, v⟩ := hd
    have hu' := List.pairwise_cons.mp hu
    by_cases heq : k = key
    · subst heq
      have hv : v = n := by
        simp [mapFind] at h
        exact h
      subst hv
      rw [List.filter_cons, if_neg (by simp [hp])]
      apply mapFind_eq_none_of_all_ne
      intro pr hpr
      exact fun hc => (hu'.1 pr (List.mem_filter.mp hpr).1) hc.symm
    · simp only [mapFind, heq, if_false] at h
      rw [List.filter_cons]
      by_cases hpk : pred (k, v) = true
      · rw [if_pos hpk]
        simp only [mapFind, heq, if_false]
        exact ih hu'.2 n h hp
      · rw [if_neg hpk]
        exact ih hu'.2 n h hp

/-- What one purge pass does: it keeps exactly the unexpired entries and
schedules, for each expired entry in table order, one notification per
matching subscription built from the tombstoned node. -/
theorem purgeLoop_spec (now : Nat) (w : List (String × Nat)) :
    ∀ e : List (String × Node),
      (purgeLoop now w e).1 = e.filter (fun pr => !isExpired now pr.2) ∧
      (purgeLoop now w e).2 = (e.filter (fun pr => isExpired now pr.2)).flatMap
        (fun pr => notifyWatchers w pr.1 { pr.2 with deleted := true }) := by
  intro e
  induction e with
  | nil => exact ⟨rfl, rfl⟩
  | cons hd tl ih =>
    obtain ⟨k, n⟩ := hd
    by_cases hx : isExpired now n = true
    · constructor
      · simp [purgeLoop, hx, List.filter_cons, ih.1]
      · simp [purgeLoop, hx, List.filter_cons, ih.2]
    · constructor
      · simp [purgeLoop, hx, List.filter_cons, ih.1]
      · simp [purgeLoop, hx, List.filter_cons, ih.2]

/-- Every callback the purge pass schedules is a watch notification for
a tombstoned node, delivered with `exists = false`. -/
theorem purgeLoop_notes (now : Nat) (w : List (String × Nat)) :
    ∀ e, ∀ c ∈ (purgeLoop now w e).2,
      ∃ wid n, Node.deleted n = true ∧ c = Cb.note wid [(n, false)] := by
  intro e
  induction e with
  | nil => intro c hc; simp [purgeLoop] at hc
  | cons hd tl ih =>
    intro c hc
    obtain ⟨k, n⟩ := hd
    by_cases hx : isExpired now n = true
    · simp only [purgeLoop, hx, if_true, List.mem_append] at hc
      rcases hc with hc | hc
      · unfold notifyWatchers at hc
        rcases List.mem_map.mp hc with ⟨wpr, hw, hmap⟩
        refine ⟨wpr.2, { n with deleted := true }, rfl, ?_⟩
        rw [← hmap]
        simp
      · exact ih c hc
    · simp only [purgeLoop, hx, Bool.false_eq_true, if_false] at hc
      exact ih c hc

/-! ## The claims -/

/-- C1: every successful create (POST) — which requires only a `value`
parameter and accepts keys of either shape — and every successful
conditional write (PUT) stamps the written entry's `modified_version`
with the counter value captured before the increment, and the response
callback reports the post-increment counter — exactly one greater than
the stamp carried by the entry just written. -/
theorem c1_entry_stamp_vs_reported_index (s : State) (key : String) (p : Params)
    (v : String) (now : Nat)
    (hv : p.value = some v) :
    (exceptOk (handlePost key p now s) = true ∧
     ∀ s' cbs, handlePost key p now s = Except.ok (s', cbs) →
       ∃ node, mapFind s'.entries (ensureEndsWithSlash key ++ Nat.repr s.index) = some node ∧
         node.modifiedIndex = s.index ∧ s'.index = s.index + 1 ∧
         cbs.head? = some (Cb.response Status.ok (fillJsonForEntry node "create")
           (node.modifiedIndex + 1))) ∧
    (endsWithSlash key = false → checkCompareFlags p key s.entries = Status.ok →
     exceptOk (handlePut key p now s) = true ∧
     ∀ s' cbs, handlePut key p now s = Except.ok (s', cbs) →
       ∃ node, mapFind s'.entries key = some node ∧
         node.modifiedIndex = s.index ∧ s'.index = s.index + 1 ∧
         cbs.head? = some (Cb.response Status.ok (fillJsonForEntry node "set")
           (node.modifiedIndex + 1))) := by
  refine ⟨⟨?_, ?_⟩, ?_⟩
  · simp [handlePost, hv, exceptOk]
  · intro s' cbs h
    simp only [handlePost, hv, Except.ok.injEq, Prod.mk.injEq] at h
    obtain ⟨hs, hcbs⟩ := h
    subst hs
    subst hcbs
    refine ⟨_, mapFind_insert_self _ _ _, maybeSetExpiry_modifiedIndex now p _, rfl, ?_⟩
    simp [maybeSetExpiry_modifiedIndex]
  · intro hleaf hcas
    refine ⟨?_, ?_⟩
    · simp [handlePut, hv, hleaf, hcas, exceptOk]
    · intro s' cbs h
      simp only [handlePut, hleaf, Bool.false_eq_true, if_false, hv, hcas, ne_eq,
        not_true_eq_false, if_false, Except.ok.injEq, Prod.mk.injEq] at h
      cases hfind : mapFind s.entries key with
      | none =>
        rw [hfind] at h
        obtain ⟨hs, hcbs⟩ := h
        subst hs
        subst hcbs
        refine ⟨_, mapFind_insert_self _ _ _, maybeSetExpiry_modifiedIndex now p _, rfl, ?_⟩
        simp [maybeSetExpiry_modifiedIndex]
      | some old =>
        rw [hfind] at h
        obtain ⟨hs, hcbs⟩ := h
        subst hs
        subst hcbs
        refine ⟨_, mapFind_insert_self _ _ _, maybeSetExpiry_modifiedIndex now p _, rfl, ?_⟩
        simp [maybeSetExpiry_modifiedIndex]

/-- Witness for C1 at concrete inputs: the canonical directory-targeted
create (`POST queue/`) and a first write of leaf `a`, both on the
freshly constructed store. -/
theorem c1_entry_stamp_vs_reported_index_witness :
    (exceptOk (handlePost "queue/" { value := some "x" } 0 State.init) = true ∧
     ∀ s' cbs, handlePost "queue/" { value := some "x" } 0 State.init = Except.ok (s', cbs) →
       ∃ node, mapFind s'.entries
           (ensureEndsWithSlash "queue/" ++ Nat.repr State.init.index) = some node ∧
         node.modifiedIndex = State.init.index ∧ s'.index = State.init.index + 1 ∧
         cbs.head? = some (Cb.response Status.ok (fillJsonForEntry node "create")
           (node.modifiedIndex + 1))) ∧
    (exceptOk (handlePut "a" { value := some "x" } 0 State.init) = true ∧
     ∀ s' cbs, handlePut "a" { value := some "x" } 0 State.init = Except.ok (s', cbs) →
       ∃ node, mapFind s'.entries "a" = some node ∧
         node.modifiedIndex = State.init.index ∧ s'.index = State.init.index + 1 ∧
         cbs.head? = some (Cb.response Status.ok (fillJsonForEntry node "set")
           (node.modifiedIndex + 1))) :=
  ⟨(c1_entry_stamp_vs_reported_index State.init "queue/" { value := some "x" } "x" 0 rfl).1,
   (c1_entry_stamp_vs_reported_index State.init "a" { value := some "x" } "x" 0 rfl).2 (by decide) (by decide)⟩

/-- C4: a conditional write to a key that already exists preserves the
entry's `created_version` while freshly stamping only
`modified_version`. -/
theorem c4_created_version_stability (s : State) (key : String) (p : Params)
    (v : String) (now : Nat) (old : Node)
    (hv : p.value = some v) (hleaf : endsWithSlash key = false)
    (hfind : mapFind s.entries key = some old)
    (hcas : checkCompareFlags p key s.entries = Status.ok) :
    ∃ s' cbs node, handlePut key p now s = Except.ok (s', cbs) ∧
      mapFind s'.entries key = some node ∧
      node.createdIndex = old.createdIndex ∧
      node.modifiedIndex = s.index ∧
      node.value = v := by
  cases hres : handlePut key p now s with
  | error e =>
    simp [handlePut, hv, hleaf, hcas, hfind] at hres
  | ok pair =>
    obtain ⟨s', cbs⟩ := pair
    simp only [handlePut, hleaf, Bool.false_eq_true, if_false, hv, hcas, ne_eq,
      not_true_eq_false, if_false, hfind, Except.ok.injEq, Prod.mk.injEq] at hres
    obtain ⟨hs, hcbs⟩ := hres
    subst hs
    refine ⟨_, _, _, rfl, mapFind_insert_self _ _ _, by simp, ?_, ?_⟩
    · simp [maybeSetExpiry_modifiedIndex]
    · simp [maybeSetExpiry_value]

/-- Witness for C4: a second write to leaf `a` (first written at version
1) keeps `created_version = 1` and stamps `modified_version = 2`. -/
theorem c4_created_version_stability_witness :
    ∃ s' cbs node,
      handlePut "a" { value := some "v2" }
        0 (⟨[("a", ⟨1, 1, "a", "v1", false, none⟩)], 2, [], 0⟩ : State)
        = Except.ok (s', cbs) ∧
      mapFind s'.entries "a" = some node ∧
      node.createdIndex = (⟨1, 1, "a", "v1", false, none⟩ : Node).createdIndex ∧
      node.modifiedIndex = (⟨[("a", ⟨1, 1, "a", "v1", false, none⟩)], 2, [], 0⟩ : State).index ∧
      node.value = "v2" :=
  c4_created_version_stability
    (⟨[("a", ⟨1, 1, "a", "v1", false, none⟩)], 2, [], 0⟩ : State) "a"
    { value := some "v2" } "v2" 0 ⟨1, 1, "a", "v1", false, none⟩
    rfl (by decide) (by decide) (by decide)

/-- C10: a `prevExist` parameter whose string is neither exactly `false`
nor exactly `true` imposes no existence constraint: the check behaves as
if `prevExist` were absent, so only a `prevIndex` parameter can still
fail the precondition (and with no `prevIndex` the check passes). -/
theorem c10_prevExist_unrecognized (p : Params) (key : String)
    (entries : List (String × Node)) (pe : String)
    (hpe : p.prevExist = some pe) (hf : pe ≠ "false") (ht : pe ≠ "true") :
    checkCompareFlags p key entries =
      checkCompareFlags { p with prevExist := none } key entries ∧
    (p.prevIndex = none → checkCompareFlags p key entries = Status.ok) := by
  have h1 : checkCompareFlags p key entries =
      checkCompareFlags { p with prevExist := none } key entries := by
    simp [checkCompareFlags, hpe, hf, ht]
  refine ⟨h1, fun hpi => ?_⟩
  rw [h1]
  simp [checkCompareFlags, hpi]

/-- Witness for C10: `prevExist = "True"` (capitalised) on an absent key
passes the check even though `prevExist = "true"` would fail it. -/
theorem c10_prevExist_unrecognized_witness :
    (checkCompareFlags { prevExist := some "True" } "k" [] =
      checkCompareFlags
        { ({ prevExist := some "True" } : Params) with prevExist := none } "k" [] ∧
    (({ prevExist := some "True" } : Params).prevIndex = none →
      checkCompareFlags { prevExist := some "True" } "k" [] = Status.ok)) ∧
    checkCompareFlags { prevExist := some "true" } "k" [] ≠ Status.ok :=
  ⟨c10_prevExist_unrecognized { prevExist := some "True" } "k" [] "True"
      rfl (by decide) (by decide),
   by decide⟩

/-- C2: with `value` supplied, no `prevExist`, and `prevIndex` carrying
the decimal rendering of `N`, a conditional write succeeds exactly when
the key exists with `modified_version = N`; when it does not, the
operation schedules a `FailedPrecondition` response and returns the
state unchanged — same table, same version counter. -/
theorem c2_cas_correctness (s : State) (key : String) (p : Params) (v : String)
    (idxN : Nat) (now : Nat)
    (hv : p.value = some v) (hleaf : endsWithSlash key = false)
    (hpe : p.prevExist = none) (hpi : p.prevIndex = some (Nat.repr idxN)) :
    (checkCompareFlags p key s.entries = Status.ok ↔
       ∃ node, mapFind s.entries key = some node ∧ node.modifiedIndex = idxN) ∧
    (∀ node, mapFind s.entries key = some node → node.modifiedIndex = idxN →
       ∃ s' cbs rest n2, handlePut key p now s = Except.ok (s', cbs) ∧
         s'.index = s.index + 1 ∧
         cbs = Cb.response Status.ok (fillJsonForEntry n2 "set") (s.index + 1) :: rest) ∧
    ((¬ ∃ node, mapFind s.entries key = some node ∧ node.modifiedIndex = idxN) →
       ∃ msg, handlePut key p now s =
         Except.ok (s, [Cb.response (Status.failedPrecondition msg) [] s.index])) := by
  have hiff : checkCompareFlags p key s.entries = Status.ok ↔
      ∃ node, mapFind s.entries key = some node ∧ node.modifiedIndex = idxN := by
    cases hfind : mapFind s.entries key with
    | none => simp [checkCompareFlags, hpe, hpi, hfind]
    | some n =>
      by_cases hrep : Nat.repr idxN = Nat.repr n.modifiedIndex
      · have hmod : n.modifiedIndex = idxN := (natRepr_injective _ _ hrep).symm
        simp [checkCompareFlags, hpe, hpi, hfind, hrep, hmod]
      · have hne : ¬(n.modifiedIndex = idxN) := fun h => hrep (by rw [h])
        simp [checkCompareFlags, hpe, hpi, hfind, hrep, hne]
  refine ⟨hiff, ?_, ?_⟩
  · intro node hfind hmod
    have hcas : checkCompareFlags p key s.entries = Status.ok :=
      hiff.mpr ⟨node, hfind, hmod⟩
    cases hres : handlePut key p now s with
    | error e => simp [handlePut, hv, hleaf, hcas, hfind] at hres
    | ok pair =>
      obtain ⟨s', cbs⟩ := pair
      simp only [handlePut, hleaf, Bool.false_eq_true, if_false, hv, hcas, ne_eq,
        not_true_eq_false, if_false, hfind, Except.ok.injEq, Prod.mk.injEq] at hres
      obtain ⟨hs, hcbs⟩ := hres
      subst hs
      subst hcbs
      exact ⟨_, _, _, _, rfl, rfl, rfl⟩
  · intro hno
    have hst : ∃ msg, checkCompareFlags p key s.entries = Status.failedPrecondition msg := by
      cases hfind : mapFind s.entries key with
      | none =>
        exact ⟨"Node doesn't exist: " ++ key,
          by simp [checkCompareFlags, hpe, hpi, hfind]⟩
      | some n =>
        have hrep : ¬(Nat.repr idxN = Nat.repr n.modifiedIndex) := by
          intro h
          exact hno ⟨n, hfind, (natRepr_injective _ _ h).symm⟩
        exact ⟨"Incorrect index:  prevIndex=" ++ Nat.repr idxN ++
            " but modified_index_=" ++ Nat.repr n.modifiedIndex,
          by simp [checkCompareFlags, hpe, hpi, hfind, hrep]⟩
    obtain ⟨msg, hst⟩ := hst
    refine ⟨msg, ?_⟩
    simp [handlePut, hleaf, hv, hst]

/-- Witness for C2: on a store holding `a` at `modified_version = 1`,
a write with `prevIndex = "1"` matches the CAS characterisation. -/
theorem c2_cas_correctness_witness :
    (checkCompareFlags { value := some "v2", prevIndex := some (Nat.repr 1) } "a"
        (⟨[("a", ⟨1, 1, "a", "v1", false, none⟩)], 2, [], 0⟩ : State).entries = Status.ok ↔
       ∃ node, mapFind (⟨[("a", ⟨1, 1, "a", "v1", false, none⟩)], 2, [], 0⟩ : State).entries
           "a" = some node ∧ node.modifiedIndex = 1) ∧
    (∀ node, mapFind (⟨[("a", ⟨1, 1, "a", "v1", false, none⟩)], 2, [], 0⟩ : State).entries
         "a" = some node → node.modifiedIndex = 1 →
       ∃ s' cbs rest n2,
         handlePut "a" { value := some "v2", prevIndex := some (Nat.repr 1) } 0
           (⟨[("a", ⟨1, 1, "a", "v1", false, none⟩)], 2, [], 0⟩ : State)
           = Except.ok (s', cbs) ∧
         s'.index = (⟨[("a", ⟨1, 1, "a", "v1", false, none⟩)], 2, [], 0⟩ : State).index + 1 ∧
         cbs = Cb.response Status.ok (fillJsonForEntry n2 "set")
           ((⟨[("a", ⟨1, 1, "a", "v1", false, none⟩)], 2, [], 0⟩ : State).index + 1) :: rest) ∧
    ((¬ ∃ node, mapFind (⟨[("a", ⟨1, 1, "a", "v1", false, none⟩)], 2, [], 0⟩ : State).entries
         "a" = some node ∧ node.modifiedIndex = 1) →
       ∃ msg, handlePut "a" { value := some "v2", prevIndex := some (Nat.repr 1) } 0
           (⟨[("a", ⟨1, 1, "a", "v1", false, none⟩)], 2, [], 0⟩ : State)
           = Except.ok ((⟨[("a", ⟨1, 1, "a", "v1", false, none⟩)], 2, [], 0⟩ : State),
             [Cb.response (Status.failedPrecondition msg) []
               (⟨[("a", ⟨1, 1, "a", "v1", false, none⟩)], 2, [], 0⟩ : State).index])) :=
  c2_cas_correctness (⟨[("a", ⟨1, 1, "a", "v1", false, none⟩)], 2, [], 0⟩ : State) "a"
    { value := some "v2", prevIndex := some (Nat.repr 1) } "v2" 1 0
    rfl (by decide) rfl rfl

/-- C6: whenever a create, conditional write, or conditional delete
completes, the callback list it enqueues starts with the operation's own
response, and everything after it is a watch notification — the response
is scheduled strictly before any notification generated by the same
mutation. -/
theorem c6_response_scheduled_before_notifications (key : String) (p : Params)
    (now : Nat) (s : State) :
    (∀ s' cbs, handlePost key p now s = Except.ok (s', cbs) →
       ∃ st j i rest, cbs = Cb.response st j i :: rest ∧
         ∀ c ∈ rest, ∃ wid u, c = Cb.note wid u) ∧
    (∀ s' cbs, handlePut key p now s = Except.ok (s', cbs) →
       ∃ st j i rest, cbs = Cb.response st j i :: rest ∧
         ∀ c ∈ rest, ∃ wid u, c = Cb.note wid u) ∧
    (∀ s' cbs, handleDelete key p s = Except.ok (s', cbs) →
       ∃ st j i rest, cbs = Cb.response st j i :: rest ∧
         ∀ c ∈ rest, ∃ wid u, c = Cb.note wid u) := by
  refine ⟨?_, ?_, ?_⟩
  · intro s' cbs h
    cases hv : p.value with
    | none => simp [handlePost, hv] at h
    | some v =>
      simp only [handlePost, hv, Except.ok.injEq, Prod.mk.injEq] at h
      obtain ⟨hs, hcbs⟩ := h
      subst hcbs
      exact ⟨_, _, _, _, rfl, notifyForPath_notes _ _ _⟩
  · intro s' cbs h
    by_cases hslash : endsWithSlash key = true
    · simp [handlePut, hslash] at h
    · have hslash' : endsWithSlash key = false := by
        cases hx : endsWithSlash key
        · rfl
        · exact absurd hx hslash
      cases hv : p.value with
      | none => simp [handlePut, hslash', hv] at h
      | some v =>
        by_cases hst : checkCompareFlags p key s.entries = Status.ok
        · simp only [handlePut, hslash', Bool.false_eq_true, if_false, hv, hst, ne_eq,
            not_true_eq_false, if_false, Except.ok.injEq, Prod.mk.injEq] at h
          obtain ⟨hs, hcbs⟩ := h
          subst hcbs
          exact ⟨_, _, _, _, rfl, notifyForPath_notes _ _ _⟩
        · simp only [handlePut, hslash', Bool.false_eq_true, if_false, hv, ne_eq, hst,
            not_false_eq_true, if_true, Except.ok.injEq, Prod.mk.injEq] at h
          obtain ⟨hs, hcbs⟩ := h
          subst hcbs
          refine ⟨_, _, _, [], rfl, ?_⟩
          intro c hc
          simp at hc
  · intro s' cbs h
    by_cases hslash : endsWithSlash key = true
    · simp [handleDelete, hslash] at h
    · have hslash' : endsWithSlash key = false := by
        cases hx : endsWithSlash key
        · rfl
        · exact absurd hx hslash
      by_cases hst : checkCompareFlags p key s.entries = Status.ok
      · simp only [handleDelete, hslash', Bool.false_eq_true, if_false, hst, ne_eq,
          not_true_eq_false, if_false, Except.ok.injEq, Prod.mk.injEq] at h
        obtain ⟨hs, hcbs⟩ := h
        subst hcbs
        exact ⟨_, _, _, _, rfl, notifyForPath_notes _ _ _⟩
      · simp only [handleDelete, hslash', Bool.false_eq_true, if_false, ne_eq, hst,
          not_false_eq_true, if_true, Except.ok.injEq, Prod.mk.injEq] at h
        obtain ⟨hs, hcbs⟩ := h
        subst hcbs
        refine ⟨_, _, _, [], rfl, ?_⟩
        intro c hc
        simp at hc

/-- Witness for C6: the callbacks of a concrete create on the fresh
store start with the response, followed only by notifications. -/
theorem c6_response_scheduled_before_notifications_witness :
    ∃ st j i rest,
      [Cb.response Status.ok
        (fillJsonForEntry (⟨1, 1, "a/1", "x", false, none⟩ : Node) "create") 2]
        = Cb.response st j i :: rest ∧
      ∀ c ∈ rest, ∃ wid u, c = Cb.note wid u :=
  (c6_response_scheduled_before_notifications "a" { value := some "x" } 0 State.init).1
    (⟨[("a/1", ⟨1, 1, "a/1", "x", false, none⟩)], 2, [], 0⟩ : State)
    [Cb.response Status.ok
      (fillJsonForEntry (⟨1, 1, "a/1", "x", false, none⟩ : Node) "create") 2]
    rfl

/-- C5: registering a watch on a key schedules exactly one initial
notification, whose payload lists every entry of the table whose key
extends the watched key, each with `exists = true`; it is scheduled even
when that list is empty, and it stands at the head of the whole
schedule from the registration on — before any later update for that
subscription. -/
theorem c5_watch_initial_snapshot (wkey : String) (s : State) :
    ∀ ops s' trace, runOps (Op.watch wkey :: ops) s = Except.ok (s', trace) →
      ∃ snapshot,
        (watch wkey s).2 = [Cb.note s.nextWatcher snapshot] ∧
        trace.head? = some (Cb.note s.nextWatcher snapshot) ∧
        (∀ u ∈ snapshot, u.2 = true) ∧
        (∀ k n, (k, n) ∈ s.entries → strStartsWith k wkey = true → (n, true) ∈ snapshot) ∧
        (∀ u ∈ snapshot, ∃ k, (k, u.1) ∈ s.entries ∧ strStartsWith k wkey = true) := by
  intro ops s' trace h
  refine ⟨(s.entries.filter (fun pr => strStartsWith pr.1 wkey)).map (fun pr => (pr.2, true)),
    ?_, ?_, ?_, ?_, ?_⟩
  · rfl
  · simp only [runOps, runOp] at h
    cases hrest : runOps ops (watch wkey s).1 with
    | error e =>
      rw [hrest] at h
      simp at h
    | ok out =>
      obtain ⟨s2, cbs2⟩ := out
      rw [hrest] at h
      simp only [Except.ok.injEq, Prod.mk.injEq] at h
      obtain ⟨hs, htrace⟩ := h
      subst htrace
      rfl
  · intro u hu
    rcases List.mem_map.mp hu with ⟨pr, _, hpr⟩
    rw [← hpr]
  · intro k n hmem hpre
    exact List.mem_map.mpr ⟨(k, n), List.mem_filter.mpr ⟨hmem, hpre⟩, rfl⟩
  · intro u hu
    rcases List.mem_map.mp hu with ⟨pr, hprf, hpr⟩
    rcases List.mem_filter.mp hprf with ⟨hprm, hprc⟩
    refine ⟨pr.1, ?_, hprc⟩
    rw [← hpr]
    exact hprm

/-- Witness for C5: a watch registered on the fresh store delivers the
empty initial snapshot first. -/
theorem c5_watch_initial_snapshot_witness :
    ∃ snapshot,
      (watch "a" State.init).2 = [Cb.note State.init.nextWatcher snapshot] ∧
      ([Cb.note 0 []] : List Cb).head? = some (Cb.note State.init.nextWatcher snapshot) ∧
      (∀ u ∈ snapshot, u.2 = true) ∧
      (∀ k n, (k, n) ∈ State.init.entries → strStartsWith k "a" = true →
        (n, true) ∈ snapshot) ∧
      (∀ u ∈ snapshot, ∃ k, (k, u.1) ∈ State.init.entries ∧ strStartsWith k "a" = true) :=
  c5_watch_initial_snapshot "a" State.init []
    (⟨[], 1, [("a", 0)], 1⟩ : State) [Cb.note 0 []] rfl

/-- C3 counterexample: a conditional delete whose `prevIndex`
precondition fails completes without incrementing the version counter —
the store (counter included) is returned unchanged — so "the counter is
incremented exactly once by every conditional-delete operation" is false
as stated. -/
theorem c3_counterexample :
    ∃ cbs msg,
      runOp (Op.generic "a" { prevIndex := some "1" } Verb.delete 0) State.init
        = Except.ok (State.init, cbs) ∧
      cbs = [Cb.response (Status.failedPrecondition msg) [] State.init.index] := by
  refine ⟨_, "Node doesn't exist: a", ?_, rfl⟩
  rfl

/-- C3 (amended): every completed create increments the counter exactly
once; a conditional write or delete increments it exactly once when its
precondition passes and leaves the whole store unchanged when it fails;
reads and watch registrations never change it. Consequently the counter
never decreases across any operation sequence, and every version stamp
in the table stays strictly below the counter, so no version value is
ever reused. -/
theorem c3_amended_counter_monotonic :
    (∀ key p now s s' cbs, handlePost key p now s = Except.ok (s', cbs) →
       s'.index = s.index + 1) ∧
    (∀ key p now s s' cbs, handlePut key p now s = Except.ok (s', cbs) →
       (checkCompareFlags p key s.entries = Status.ok → s'.index = s.index + 1) ∧
       (checkCompareFlags p key s.entries ≠ Status.ok → s' = s)) ∧
    (∀ key p s s' cbs, handleDelete key p s = Except.ok (s', cbs) →
       (checkCompareFlags p key s.entries = Status.ok → s'.index = s.index + 1) ∧
       (checkCompareFlags p key s.entries ≠ Status.ok → s' = s)) ∧
    (∀ op s s' cbs, runOp op s = Except.ok (s', cbs) →
       s.index ≤ s'.index ∧ s'.index ≤ s.index + 1 ∧
       (Op.isMutation op = false → s'.index = s.index) ∧
       (versionsBelow s → versionsBelow s')) ∧
    (∀ ops s s' trace, runOps ops s = Except.ok (s', trace) →
       s.index ≤ s'.index ∧ (versionsBelow s → versionsBelow s')) := by
  have hpost : ∀ key p now s s' cbs, handlePost key p now s = Except.ok (s', cbs) →
      s'.index = s.index + 1 := by
    intro key p now s s' cbs h
    obtain ⟨node, hm, hc, rfl⟩ := handlePost_state key p now s s' cbs h
    rfl
  have hput : ∀ key p now s s' cbs, handlePut key p now s = Except.ok (s', cbs) →
      (checkCompareFlags p key s.entries = Status.ok → s'.index = s.index + 1) ∧
      (checkCompareFlags p key s.entries ≠ Status.ok → s' = s) := by
    intro key p now s s' cbs h
    rcases handlePut_state key p now s s' cbs h with ⟨hne, rfl⟩ | ⟨hok, node, hm, hc, rfl⟩
    · exact ⟨fun hok => absurd hok hne, fun _ => rfl⟩
    · exact ⟨fun _ => rfl, fun hne => absurd hok hne⟩
  have hdel : ∀ key p s s' cbs, handleDelete key p s = Except.ok (s', cbs) →
      (checkCompareFlags p key s.entries = Status.ok → s'.index = s.index + 1) ∧
      (checkCompareFlags p key s.entries ≠ Status.ok → s' = s) := by
    intro key p s s' cbs h
    rcases handleDelete_state key p s s' cbs h with ⟨hne, rfl⟩ | ⟨hok, tomb, hb, rfl⟩
    · exact ⟨fun hok => absurd hok hne, fun _ => rfl⟩
    · exact ⟨fun _ => rfl, fun hne => absurd hok hne⟩
  have hpostV : ∀ key p now s s' cbs, handlePost key p now s = Except.ok (s', cbs) →
      versionsBelow s → versionsBelow s' := by
    intro key p now s s' cbs h hv
    obtain ⟨node, hm, hc, rfl⟩ := handlePost_state key p now s s' cbs h
    intro pr hpr
    rcases mem_mapInsert _ _ _ _ hpr with rfl | hmem
    · constructor
      · show node.modifiedIndex < s.index + 1
        omega
      · show node.createdIndex < s.index + 1
        omega
    · have hb := hv pr hmem
      constructor
      · show pr.2.modifiedIndex < s.index + 1
        omega
      · show pr.2.createdIndex < s.index + 1
        omega
  have hputV : ∀ key p now s s' cbs, handlePut key p now s = Except.ok (s', cbs) →
      versionsBelow s → versionsBelow s' := by
    intro key p now s s' cbs h hv
    rcases handlePut_state key p now s s' cbs h with ⟨hne, rfl⟩ | ⟨hok, node, hm, hc, rfl⟩
    · exact hv
    · have hcreated : node.createdIndex < s.index + 1 := by
        rcases hc with hc | ⟨old, hfind, hc⟩
        · omega
        · have hlt : old.createdIndex < s.index :=
            (hv (key, old) (mapFind_mem key s.entries old hfind)).2
          omega
      intro pr hpr
      rcases mem_mapInsert _ _ _ _ hpr with rfl | hmem
      · constructor
        · show node.modifiedIndex < s.index + 1
          omega
        · show node.createdIndex < s.index + 1
          omega
      · have hb := hv pr hmem
        constructor
        · show pr.2.modifiedIndex < s.index + 1
          omega
        · show pr.2.createdIndex < s.index + 1
          omega
  have hdelV : ∀ key p s s' cbs, handleDelete key p s = Except.ok (s', cbs) →
      versionsBelow s → versionsBelow s' := by
    intro key p s s' cbs h hv
    rcases handleDelete_state key p s s' cbs h with ⟨hne, rfl⟩ | ⟨hok, tomb, hb, rfl⟩
    · exact hv
    · have htomb : tomb.modifiedIndex < s.index + 1 ∧ tomb.createdIndex < s.index + 1 := by
        rcases hb with ⟨old, hfind, hm, hc⟩ | ⟨hm, hc⟩
        · have h1 : old.modifiedIndex < s.index :=
            (hv (key, old) (mapFind_mem key s.entries old hfind)).1
          have h2 : old.createdIndex < s.index :=
            (hv (key, old) (mapFind_mem key s.entries old hfind)).2
          constructor
          · show tomb.modifiedIndex < s.index + 1
            omega
          · show tomb.createdIndex < s.index + 1
            omega
        · constructor <;> omega
      intro pr hpr
      have hpr2 := mem_mapErase _ _ _ hpr
      rcases mem_mapInsert _ _ _ _ hpr2 with rfl | hmem
      · exact htomb
      · have hb2 := hv pr hmem
        constructor
        · show pr.2.modifiedIndex < s.index + 1
          omega
        · show pr.2.createdIndex < s.index + 1
          omega
  have hpurgeV : ∀ now s, versionsBelow s →
      versionsBelow { s with entries := (purgeLoop now s.watches s.entries).1 } := by
    intro now s hv pr hpr
    exact hv pr (purgeLoop_subset now s.watches s.entries pr hpr)
  have hrun : ∀ op s s' cbs, runOp op s = Except.ok (s', cbs) →
      s.index ≤ s'.index ∧ s'.index ≤ s.index + 1 ∧
      (Op.isMutation op = false → s'.index = s.index) ∧
      (versionsBelow s → versionsBelow s') := by
    intro op s s' cbs h
    cases op with
    | watch wkey =>
      simp only [runOp, Except.ok.injEq] at h
      have hs : s' = (watch wkey s).1 := (congrArg Prod.fst h).symm
      subst hs
      exact ⟨Nat.le_refl _, Nat.le_succ _, fun _ => rfl, fun hv => hv⟩
    | generic key p verb now =>
      simp only [runOp, generic] at h
      cases verb with
      | get =>
        simp only [Except.ok.injEq, Prod.mk.injEq] at h
        obtain ⟨rfl, -⟩ := h
        exact ⟨Nat.le_refl _, Nat.le_succ _, fun _ => rfl, fun hv => hpurgeV now s hv⟩
      | post =>
        cases hres : handlePost key p now
            { s with entries := (purgeLoop now s.watches s.entries).1 } with
        | error e => rw [hres] at h; simp at h
        | ok out =>
          obtain ⟨s2, cbs2⟩ := out
          rw [hres] at h
          simp only [Except.ok.injEq, Prod.mk.injEq] at h
          obtain ⟨rfl, -⟩ := h
          have hpidx : ({ s with entries := (purgeLoop now s.watches s.entries).1 } : State).index
              = s.index := rfl
          have hidx := hpost _ _ _ _ _ _ hres
          refine ⟨?_, ?_, ?_, ?_⟩
          · omega
          · omega
          · intro hmf
            simp [Op.isMutation] at hmf
          · intro hv
            exact hpostV _ _ _ _ _ _ hres (hpurgeV now s hv)
      | put =>
        cases hres : handlePut key p now
            { s with entries := (purgeLoop now s.watches s.entries).1 } with
        | error e => rw [hres] at h; simp at h
        | ok out =>
          obtain ⟨s2, cbs2⟩ := out
          rw [hres] at h
          simp only [Except.ok.injEq, Prod.mk.injEq] at h
          obtain ⟨rfl, -⟩ := h
          have hpidx : ({ s with entries := (purgeLoop now s.watches s.entries).1 } : State).index
              = s.index := rfl
          have hidx := hput _ _ _ _ _ _ hres
          refine ⟨?_, ?_, ?_, ?_⟩
          · by_cases hok : checkCompareFlags p key
                ({ s with entries := (purgeLoop now s.watches s.entries).1 }).entries = Status.ok
            · have h1 := hidx.1 hok
              omega
            · have hss := hidx.2 hok
              rw [hss]
          · by_cases hok : checkCompareFlags p key
                ({ s with entries := (purgeLoop now s.watches s.entries).1 }).entries = Status.ok
            · have h1 := hidx.1 hok
              omega
            · have hss := hidx.2 hok
              rw [hss]
              omega
          · intro hmf
            simp [Op.isMutation] at hmf
          · intro hv
            exact hputV _ _ _ _ _ _ hres (hpurgeV now s hv)
      | delete =>
        cases hres : handleDelete key p
            { s with entries := (purgeLoop now s.watches s.entries).1 } with
        | error e => rw [hres] at h; simp at h
        | ok out =>
          obtain ⟨s2, cbs2⟩ := out
          rw [hres] at h
          simp only [Except.ok.injEq, Prod.mk.injEq] at h
          obtain ⟨rfl, -⟩ := h
          have hpidx : ({ s with entries := (purgeLoop now s.watches s.entries).1 } : State).index
              = s.index := rfl
          have hidx := hdel _ _ _ _ _ hres
          refine ⟨?_, ?_, ?_, ?_⟩
          · by_cases hok : checkCompareFlags p key
                ({ s with entries := (purgeLoop now s.watches s.entries).1 }).entries = Status.ok
            · have h1 := hidx.1 hok
              omega
            · have hss := hidx.2 hok
              rw [hss]
          · by_cases hok : checkCompareFlags p key
                ({ s with entries := (purgeLoop now s.watches s.entries).1 }).entries = Status.ok
            · have h1 := hidx.1 hok
              omega
            · have hss := hidx.2 hok
              rw [hss]
              omega
          · intro hmf
            simp [Op.isMutation] at hmf
          · intro hv
            exact hdelV _ _ _ _ _ hres (hpurgeV now s hv)
  have hseq : ∀ ops s s' trace, runOps ops s = Except.ok (s', trace) →
      s.index ≤ s'.index ∧ (versionsBelow s → versionsBelow s') := by
    intro ops
    induction ops with
    | nil =>
      intro s s' trace h
      simp only [runOps, Except.ok.injEq, Prod.mk.injEq] at h
      obtain ⟨rfl, -⟩ := h
      exact ⟨Nat.le_refl _, fun hv => hv⟩
    | cons op ops ih =>
      intro s s' trace h
      simp only [runOps] at h
      cases hop : runOp op s with
      | error e => rw [hop] at h; simp at h
      | ok out =>
        obtain ⟨s1, cbs1⟩ := out
        rw [hop] at h
        dsimp only [] at h
        cases hrest : runOps ops s1 with
        | error e => rw [hrest] at h; simp at h
        | ok out2 =>
          obtain ⟨s2, cbs2⟩ := out2
          rw [hrest] at h
          simp only [Except.ok.injEq, Prod.mk.injEq] at h
          obtain ⟨rfl, -⟩ := h
          have h1 := hrun op s s1 cbs1 hop
          have h2 := ih s1 s2 cbs2 hrest
          exact ⟨Nat.le_trans h1.1 h2.1, fun hv => h2.2 (h1.2.2.2 hv)⟩
  exact ⟨hpost, hput, hdel, hrun, hseq⟩

/-- Witness for C3: a concrete create bumps the counter from 1 to 2. -/
theorem c3_amended_counter_monotonic_witness :
    (⟨[("a/1", ⟨1, 1, "a/1", "x", false, none⟩)], 2, [], 0⟩ : State).index
      = State.init.index + 1 :=
  c3_amended_counter_monotonic.1 "a" { value := some "x" } 0 State.init
    (⟨[("a/1", ⟨1, 1, "a/1", "x", false, none⟩)], 2, [], 0⟩ : State)
    [Cb.response Status.ok
      (fillJsonForEntry (⟨1, 1, "a/1", "x", false, none⟩ : Node) "create") 2]
    rfl

/-- C7 counterexample: watch registration does not run the expiry
sweeper. On a store holding an entry whose `expires_at` (0) is already
in the past at time 1, registering a watch returns that entry in its
snapshot with `exists = true` and leaves it in the table — the request
observed an expired entry. -/
theorem c7_counterexample :
    isExpired 1 (⟨1, 1, "k", "v", false, some 0⟩ : Node) = true ∧
    (watch "" (⟨[("k", ⟨1, 1, "k", "v", false, some 0⟩)], 2, [], 0⟩ : State)).2
      = [Cb.note 0 [((⟨1, 1, "k", "v", false, some 0⟩ : Node), true)]] ∧
    (watch "" (⟨[("k", ⟨1, 1, "k", "v", false, some 0⟩)], 2, [], 0⟩ : State)).1.entries
      = [("k", ⟨1, 1, "k", "v", false, some 0⟩)] :=
  ⟨by decide, rfl, rfl⟩

/-- C7 (amended): the verb dispatcher (`Generic`) runs the expiry
sweeper before dispatching any of the four verbs: every expired entry is
tombstoned, notified to each matching watcher with `exists = false`, and
erased; the purged table holds no expired entry; each handler (read,
create, conditional write, conditional delete) runs against the purged
table with the purge callbacks enqueued first, so no dispatched request
observes an expired entry — a read of an expired key misses, and a
conditional write or delete keyed on an expired entry's version fails
with "node doesn't exist". Watch registration, however, does not run
the sweeper and can observe expired entries. -/
theorem c7_amended_sweep_on_generic_only :
    (∀ now w e, (purgeLoop now w e).1 = e.filter (fun pr => !isExpired now pr.2) ∧
       (purgeLoop now w e).2 = (e.filter (fun pr => isExpired now pr.2)).flatMap
         (fun pr => notifyWatchers w pr.1 { pr.2 with deleted := true })) ∧
    (∀ now w e c, c ∈ (purgeLoop now w e).2 →
       ∃ wid n, Node.deleted n = true ∧ c = Cb.note wid [(n, false)]) ∧
    (∀ now w e pr, pr ∈ (purgeLoop now w e).1 → isExpired now pr.2 = false) ∧
    (∀ key p verb now s,
       generic key p verb now s =
         match (match verb with
                | Verb.get => Except.ok
                    ({ s with entries := (purgeLoop now s.watches s.entries).1 },
                     handleGet key { s with entries := (purgeLoop now s.watches s.entries).1 })
                | Verb.post => handlePost key p now
                    { s with entries := (purgeLoop now s.watches s.entries).1 }
                | Verb.put => handlePut key p now
                    { s with entries := (purgeLoop now s.watches s.entries).1 }
                | Verb.delete => handleDelete key p
                    { s with entries := (purgeLoop now s.watches s.entries).1 }) with
         | Except.ok (s2, cbs2) => Except.ok (s2, (purgeLoop now s.watches s.entries).2 ++ cbs2)
         | Except.error e => Except.error e) ∧
    (∀ key p now s n, keysUnique s.entries → endsWithSlash key = false →
       mapFind s.entries key = some n → isExpired now n = true →
       generic key p Verb.get now s = Except.ok
         ({ s with entries := (purgeLoop now s.watches s.entries).1 },
          (purgeLoop now s.watches s.entries).2 ++
            [Cb.response (Status.notFound "not found") [] s.index])) ∧
    (∀ key p now s n pi v, keysUnique s.entries → endsWithSlash key = false →
       p.value = some v → p.prevExist = none → p.prevIndex = some pi →
       mapFind s.entries key = some n → isExpired now n = true →
       generic key p Verb.put now s = Except.ok
         ({ s with entries := (purgeLoop now s.watches s.entries).1 },
          (purgeLoop now s.watches s.entries).2 ++
            [Cb.response (Status.failedPrecondition ("Node doesn't exist: " ++ key)) []
              s.index])) ∧
    (∀ key p now s n pi, keysUnique s.entries → endsWithSlash key = false →
       p.prevExist = none → p.prevIndex = some pi →
       mapFind s.entries key = some n → isExpired now n = true →
       generic key p Verb.delete now s = Except.ok
         ({ s with entries := (purgeLoop now s.watches s.entries).1 },
          (purgeLoop now s.watches s.entries).2 ++
            [Cb.response (Status.failedPrecondition ("Node doesn't exist: " ++ key)) []
              s.index])) ∧
    (∀ wkey s, (watch wkey s).1.entries = s.entries ∧ (watch wkey s).1.index = s.index) := by
  refine ⟨fun now w e => purgeLoop_spec now w e,
    fun now w e c hc => purgeLoop_notes now w e c hc, ?_, ?_, ?_, ?_, ?_,
    fun wkey s => ⟨rfl, rfl⟩⟩
  · intro now w e pr hpr
    have h1 := (purgeLoop_spec now w e).1
    rw [h1] at hpr
    have := (List.mem_filter.mp hpr).2
    simp at this
    exact this
  · intro key p verb now s
    rfl
  · intro key p now s n hu hleaf hfind hexp
    have hfe : mapFind ((purgeLoop now s.watches s.entries).1) key = none := by
      rw [(purgeLoop_spec now s.watches s.entries).1]
      exact mapFind_filter_none key _ s.entries hu n hfind (by simp [hexp])
    simp only [generic, handleGet, hleaf, Bool.false_eq_true, if_false, getSingleEntry, hfe]
  · intro key p now s n pi v hu hleaf hv hpe hpi hfind hexp
    have hfe : mapFind ((purgeLoop now s.watches s.entries).1) key = none := by
      rw [(purgeLoop_spec now s.watches s.entries).1]
      exact mapFind_filter_none key _ s.entries hu n hfind (by simp [hexp])
    have hst : checkCompareFlags p key ((purgeLoop now s.watches s.entries).1)
        = Status.failedPrecondition ("Node doesn't exist: " ++ key) := by
      simp [checkCompareFlags, hpe, hpi, hfe]
    have hne : ¬(Status.failedPrecondition ("Node doesn't exist: " ++ key) = Status.ok) := by
      simp
    simp only [generic, handlePut, hleaf, Bool.false_eq_true, if_false, hv, hst, ne_eq,
      hne, not_false_eq_true, if_true]
  · intro key p now s n pi hu hleaf hpe hpi hfind hexp
    have hfe : mapFind ((purgeLoop now s.watches s.entries).1) key = none := by
      rw [(purgeLoop_spec now s.watches s.entries).1]
      exact mapFind_filter_none key _ s.entries hu n hfind (by simp [hexp])
    have hst : checkCompareFlags p key ((purgeLoop now s.watches s.entries).1)
        = Status.failedPrecondition ("Node doesn't exist: " ++ key) := by
      simp [checkCompareFlags, hpe, hpi, hfe]
    have hne : ¬(Status.failedPrecondition ("Node doesn't exist: " ++ key) = Status.ok) := by
      simp
    simp only [generic, handleDelete, hleaf, Bool.false_eq_true, if_false, hst, ne_eq,
      hne, not_false_eq_true, if_true]

/-- Witness for C7: on a store whose only entry `k` is expired at time
1, a dispatched read reports `NotFound` and a dispatched conditional
write fails with "node doesn't exist", both after purging `k`. -/
theorem c7_amended_sweep_on_generic_only_witness :
    generic "k" {} Verb.get 1
        (⟨[("k", ⟨1, 1, "k", "v", false, some 0⟩)], 2, [], 0⟩ : State)
      = Except.ok ((⟨[], 2, [], 0⟩ : State),
          [Cb.response (Status.notFound "not found") [] 2]) ∧
    generic "k" { value := some "w", prevIndex := some "1" } Verb.put 1
        (⟨[("k", ⟨1, 1, "k", "v", false, some 0⟩)], 2, [], 0⟩ : State)
      = Except.ok ((⟨[], 2, [], 0⟩ : State),
          [Cb.response (Status.failedPrecondition "Node doesn't exist: k") [] 2]) :=
  ⟨(c7_amended_sweep_on_generic_only.2.2.2.2.1) "k" {} 1
      (⟨[("k", ⟨1, 1, "k", "v", false, some 0⟩)], 2, [], 0⟩ : State)
      (⟨1, 1, "k", "v", false, some 0⟩ : Node)
      (by simp [keysUnique]) (by decide) (by decide) (by decide),
   (c7_amended_sweep_on_generic_only.2.2.2.2.2.1) "k" { value := some "w", prevIndex := some "1" } 1
      (⟨[("k", ⟨1, 1, "k", "v", false, some 0⟩)], 2, [], 0⟩ : State)
      (⟨1, 1, "k", "v", false, some 0⟩ : Node) "1" "w"
      (by simp [keysUnique]) (by decide) rfl rfl rfl (by decide) (by decide)⟩

/-- C8 counterexample: a leaf-shaped key passed to the directory-targeted
create does not fail fast — the create completes, normalizing the key by
appending the separator (writing under `x/`). -/
theorem c8_counterexample :
    exceptOk (handlePost "x" { value := some "v" } 0 State.init) = true ∧
    ∃ s' cbs, handlePost "x" { value := some "v" } 0 State.init = Except.ok (s', cbs) ∧
      mapFind s'.entries "x/1" ≠ none := by
  refine ⟨rfl, _, _, rfl, by decide⟩

/-- C8 (amended): a directory-shaped key passed to a leaf operation
(conditional write or delete) is a contract violation that aborts the
operation; the create operation, however, accepts keys of either shape
and normalizes them by appending the separator when absent. -/
theorem c8_amended_key_shape_contract (key : String) (p : Params) (now : Nat) (s : State) :
    (endsWithSlash key = true →
      handlePut key p now s = Except.error "CHECK failed: PUT on directory key") ∧
    (endsWithSlash key = true →
      handleDelete key p s = Except.error "CHECK failed: DELETE on directory key") ∧
    (∀ v, p.value = some v → exceptOk (handlePost key p now s) = true) := by
  refine ⟨fun h => by simp [handlePut, h], fun h => by simp [handleDelete, h], ?_⟩
  intro v hv
  simp [handlePost, hv, exceptOk]

/-- Witness for C8: the directory key `a/` aborts PUT and DELETE while
POST completes on it. -/
theorem c8_amended_key_shape_contract_witness :
    handlePut "a/" { value := some "v" } 0 State.init
      = Except.error "CHECK failed: PUT on directory key" ∧
    handleDelete "a/" { value := some "v" } State.init
      = Except.error "CHECK failed: DELETE on directory key" ∧
    exceptOk (handlePost "a/" { value := some "v" } 0 State.init) = true :=
  ⟨(c8_amended_key_shape_contract "a/" { value := some "v" } 0 State.init).1 (by decide),
   (c8_amended_key_shape_contract "a/" { value := some "v" } 0 State.init).2.1 (by decide),
   (c8_amended_key_shape_contract "a/" { value := some "v" } 0 State.init).2.2 "v" rfl⟩

/-- C9 counterexample: a directory read's response document has no
top-level `action` field — the `action` field (valued `get`) sits inside
the `node` object instead. -/
theorem c9_counterexample :
    ∃ fields, getDirectory "/" State.init
        = [Cb.response Status.ok fields State.init.index] ∧
      lookupField fields "action" = none ∧
      ∃ nodeFields, lookupField fields "node" = some (JVal.obj nodeFields) ∧
        lookupField nodeFields "action" = some (JVal.str "get") := by
  refine ⟨fillJsonForDir [] "get", ?_, ?_, [("modifiedIndex", JVal.num 1),
    ("createdIndex", JVal.num 1), ("dir", JVal.bool true), ("action", JVal.str "get")],
    ?_, ?_⟩ <;> rfl

/-- C9 (amended): for every directory read the response document's only
top-level field is `node`; the `action` field (valued `get`) is carried
inside the node object, which also has `dir = true`,
`modifiedIndex = 1`, `createdIndex = 1`, and a `nodes` collection of the
child leaf documents exactly when the listing is non-empty. -/
theorem c9_amended_dir_response_shape (key : String) (s : State)
    (hdir : endsWithSlash key = true) :
    ∃ nodeFields,
      handleGet key s = [Cb.response Status.ok [("node", JVal.obj nodeFields)] s.index] ∧
      lookupField [("node", JVal.obj nodeFields)] "action" = none ∧
      lookupField nodeFields "dir" = some (JVal.bool true) ∧
      lookupField nodeFields "modifiedIndex" = some (JVal.num 1) ∧
      lookupField nodeFields "createdIndex" = some (JVal.num 1) ∧
      lookupField nodeFields "action" = some (JVal.str "get") ∧
      (lookupField nodeFields "nodes" = none ↔
        (s.entries.filter (fun pr => strStartsWith pr.1 key)).map (fun pr => pr.2) = []) ∧
      (∀ nl, lookupField nodeFields "nodes" = some nl →
         nl = JVal.arr (((s.entries.filter (fun pr => strStartsWith pr.1 key)).map
           (fun pr => pr.2)).map (fun n => JVal.obj (fillJsonForNode n)))) := by
  by_cases hl : (s.entries.filter (fun pr => strStartsWith pr.1 key)).map (fun pr => pr.2) = []
  · refine ⟨[("modifiedIndex", JVal.num 1), ("createdIndex", JVal.num 1),
      ("dir", JVal.bool true), ("action", JVal.str "get")],
      ?_, rfl, rfl, rfl, rfl, rfl, ?_, ?_⟩
    · simp [handleGet, hdir, getDirectory, fillJsonForDir, hl]
    · exact ⟨fun _ => hl, fun _ => rfl⟩
    · intro nl hnl
      simp [lookupField] at hnl
  · have hgt : 0 < ((s.entries.filter (fun pr => strStartsWith pr.1 key)).map
        (fun pr => pr.2)).length := List.length_pos.mpr hl
    refine ⟨[("modifiedIndex", JVal.num 1), ("createdIndex", JVal.num 1),
      ("dir", JVal.bool true),
      ("nodes", JVal.arr (((s.entries.filter (fun pr => strStartsWith pr.1 key)).map
        (fun pr => pr.2)).map (fun n => JVal.obj (fillJsonForNode n)))),
      ("action", JVal.str "get")],
      ?_, rfl, rfl, rfl, rfl, rfl, ?_, ?_⟩
    · have hgt2 : 0 < (s.entries.filter (fun pr => strStartsWith pr.1 key)).length := by
        simpa using hgt
      simp [handleGet, hdir, getDirectory, fillJsonForDir, hgt2]
    · constructor
      · intro h
        simp [lookupField] at h
      · intro h
        exact absurd h hl
    · intro nl hnl
      have h2 : some (JVal.arr (((s.entries.filter (fun pr => strStartsWith pr.1 key)).map
          (fun pr => pr.2)).map (fun n => JVal.obj (fillJsonForNode n)))) = some nl := hnl
      exact (Option.some.inj h2).symm

/-- Witness for C9: the empty directory listing of `/` on the fresh
store. -/
theorem c9_amended_dir_response_shape_witness :
    ∃ nodeFields,
      handleGet "/" State.init
        = [Cb.response Status.ok [("node", JVal.obj nodeFields)] State.init.index] ∧
      lookupField [("node", JVal.obj nodeFields)] "action" = none ∧
      lookupField nodeFields "dir" = some (JVal.bool true) ∧
      lookupField nodeFields "modifiedIndex" = some (JVal.num 1) ∧
      lookupField nodeFields "createdIndex" = some (JVal.num 1) ∧
      lookupField nodeFields "action" = some (JVal.str "get") ∧
      (lookupField nodeFields "nodes" = none ↔
        (State.init.entries.filter (fun pr => strStartsWith pr.1 "/")).map (fun pr => pr.2) = []) ∧
      (∀ nl, lookupField nodeFields "nodes" = some nl →
         nl = JVal.arr (((State.init.entries.filter (fun pr => strStartsWith pr.1 "/")).map
           (fun pr => pr.2)).map (fun n => JVal.obj (fillJsonForNode n)))) :=
  c9_amended_dir_response_shape "/" State.init (by decide)

end FakeEtcd
